import Mathlib

/-!
Verification of the phi-function utilities in src/beta/phi_functions.py.

Modelling conventions (shallow embedding):
  * Python ints are ℤ, Python floats / 0-dim tensors / mpmath mpf values are
    modelled by exact rationals (every float is a rational) where the code
    branches on them, and by exact reals where transcendental results appear.
  * Python exceptions are modelled with an explicit error type Err carried in
    Except; an expression that would raise maps to an Except.error value.
    In particular Python scalar division by zero raises ZeroDivisionError
    (it does not produce IEEE infinities), math.factorial of a negative int
    raises ValueError (the spec calls this DomainError), a failed assert
    raises AssertionError, and an out-of-range list subscript raises
    IndexError.
  * torch tensors are modelled element-wise: torch.zeros_like gives 0 and the
    arithmetic is the ordinary real arithmetic of one element.
  * mpmath's 80-digit arithmetic is modelled as exact real arithmetic.
-/

open Classical

/-- Kinds of Python exception the code in src/beta/phi_functions.py can raise. -/
inductive Err where
  | assertionError
  | indexError
  | zeroDivisionError
  | domainError
  deriving DecidableEq

/-- Runtime type tag of a Python scalar value, as tested by
`type(c) in \x7bfloat, torch.Tensor\x7d` in Phi.__call__. -/
inductive PyTag where
  | int
  | float
  | tensor
  | mpf
  deriving DecidableEq

/-- `_gamma(n) = math.factorial(n-1)`: Γ(n) = (n-1)! for positive integers.
math.factorial raises ValueError (DomainError) on a negative argument. -/
def _gamma (n : ℤ) : Except Err ℕ :=
  if n - 1 < 0 then .error .domainError
  else .ok (n - 1).toNat.factorial

/-- `_incomplete_gamma(s, x, gamma_s)`: Γ(s, x) via the finite sum
(s-1)! · e^(−x) · Σ_(k=0..s-1) x^k/k!.  When gamma_s is None it is computed
by `_gamma(s)`; Python's `range(s)` is empty for s ≤ 0 (modelled by s.toNat). -/
noncomputable def _incomplete_gamma (s : ℤ) (x : ℝ) (gamma_s : Option ℝ) :
    Except Err ℝ :=
  match gamma_s with
  | none =>
    match _gamma s with
    | .error e => .error e
    | .ok g =>
      .ok (((Finset.range s.toNat).sum fun k => x ^ k / (Nat.factorial k : ℝ)) *
        Real.exp (-x) * (g : ℝ))
  | some g =>
    .ok (((Finset.range s.toNat).sum fun k => x ^ k / (Nat.factorial k : ℝ)) *
      Real.exp (-x) * g)

/-- `phi(j, neg_h)`: the gamma-ratio closed form
e^(neg_h) · neg_h^(−j) · (1 − Γ(j, neg_h)/Γ(j)), guarded by `assert j > 0`.
In Python, `neg_h**-j` with neg_h == 0.0 and j > 0 raises ZeroDivisionError. -/
noncomputable def phi (j : ℤ) (neg_h : ℝ) : Except Err ℝ :=
  if j ≤ 0 then .error .assertionError
  else
    match _gamma j with
    | .error e => .error e
    | .ok g =>
      match _incomplete_gamma j neg_h (some (g : ℝ)) with
      | .error e => .error e
      | .ok incomp_gamma_ =>
        if neg_h = 0 then .error .zeroDivisionError
        else .ok (Real.exp neg_h * neg_h ^ (-j) * (1 - incomp_gamma_ / (g : ℝ)))

/-- `_phi(j, neg_h)`: the remainder-series formulation
(e^(neg_h) − Σ_(k=0..j-1) neg_h^k/k!) / neg_h^j, computed element-wise on
tensors (torch arithmetic raises no exception; torch.zeros_like is 0). -/
noncomputable def _phi (j : ℤ) (neg_h : ℝ) : ℝ :=
  (Real.exp neg_h -
    (Finset.range j.toNat).sum fun k => neg_h ^ k / (Nat.factorial k : ℝ)) /
  neg_h ^ j

/-- `phi_mpmath_series(j, neg_h)`: same remainder series in 80-digit mpmath
arithmetic, modelled exactly; division by `z**j` with z = 0 and j ≠ 0 raises
ZeroDivisionError, while `z**0 = 1` even at z = 0. -/
noncomputable def phi_mpmath_series (j : ℤ) (neg_h : ℝ) : Except Err ℝ :=
  if neg_h = 0 ∧ j ≠ 0 then .error .zeroDivisionError
  else
    .ok ((Real.exp neg_h -
      (Finset.range j.toNat).sum fun k => neg_h ^ k / (Nat.factorial k : ℝ)) /
      neg_h ^ j)

/-- `calculate_gamma(c2, c3) = (3·c3³ − 2·c3) / (c2·(2 − 3·c2))` on Python
scalars; a zero denominator makes the division raise ZeroDivisionError. -/
noncomputable def calculate_gamma (c2 c3 : ℝ) : Except Err ℝ :=
  if c2 * (2 - 3 * c2) = 0 then .error .zeroDivisionError
  else .ok ((3 * c3 ^ 3 - 2 * c3) / (c2 * (2 - 3 * c2)))

/-- State of one `Phi` evaluator instance: step size h, coefficient list c
with the runtime type tag of each entry, the memoization cache, and the flag
recording which phi implementation was selected at construction. -/
structure PhiState where
  h : ℚ
  c : List (PyTag × ℚ)
  cache : List ((ℤ × ℤ) × ℝ)
  analytic : Bool

/-- Lookup in the evaluator's cache dictionary, keyed by (j, i). -/
def cacheLookup : List ((ℤ × ℤ) × ℝ) → ℤ × ℤ → Option ℝ
  | [], _ => none
  | kv :: rest, k => if kv.1 = k then some kv.2 else cacheLookup rest k

/-- Python's normalization of a list subscript: a negative index counts from
the end of the list. -/
def pyIndex (len : ℕ) (k : ℤ) : ℤ :=
  if k < 0 then k + len else k

/-- Python list subscript `l[k]`: a negative k counts from the end; an
effective index outside [0, len) raises IndexError. -/
def pyListGet (l : List (PyTag × ℚ)) (k : ℤ) : Except Err (PyTag × ℚ) :=
  if 0 ≤ pyIndex l.length k ∧ pyIndex l.length k < l.length then
    .ok (l.getD (pyIndex l.length k).toNat (PyTag.int, 0))
  else .error .indexError

/-- The coefficient resolution performed inline by `Phi.__call__`:
c = 1 (an int) when i < 0, else c = self.c[i - 1]. -/
def resolveCoeff (σ : PhiState) (i : ℤ) : Except Err (PyTag × ℚ) :=
  if i < 0 then .ok (PyTag.int, 1) else pyListGet σ.c (i - 1)

/-- Tail of `Phi.__call__` after the coefficient has been resolved: the j == 0
type-dispatched exponential special case, otherwise a call to the selected
phi implementation (`phi_mpmath_series` when analytic_solution, else `phi`),
followed by caching.  The third component counts invocations of the selected
phi implementation. -/
noncomputable def PhiState.callWith (σ : PhiState) (j i : ℤ) (cv : PyTag × ℚ) :
    Except Err ℝ × PhiState × ℕ :=
  if j = 0 ∧ (cv.1 = PyTag.float ∨ cv.1 = PyTag.tensor) then
    (.ok (Real.exp ((-(σ.h * cv.2) : ℚ) : ℝ)),
     { σ with cache := ((j, i), Real.exp ((-(σ.h * cv.2) : ℚ) : ℝ)) :: σ.cache },
     0)
  else
    match (if σ.analytic then phi_mpmath_series j ((-(σ.h * cv.2) : ℚ) : ℝ)
           else phi j ((-(σ.h * cv.2) : ℚ) : ℝ)) with
    | .error e => (.error e, σ, 1)
    | .ok r => (.ok r, { σ with cache := ((j, i), r) :: σ.cache }, 1)

/-- `Phi.__call__(j, i)`: cached fast path, coefficient resolution, the
zero-coefficient short-circuit (which stores and returns 0), then
`PhiState.callWith`.  Returns (result, post-state, phi-invocation count);
an exception leaves the state unchanged. -/
noncomputable def PhiState.call (σ : PhiState) (j i : ℤ) :
    Except Err ℝ × PhiState × ℕ :=
  match cacheLookup σ.cache (j, i) with
  | some v => (.ok v, σ, 0)
  | none =>
    if i < 0 then σ.callWith j i (PyTag.int, 1)
    else
      match pyListGet σ.c (i - 1) with
      | .error e => (.error e, σ, 0)
      | .ok cv =>
        if cv.2 = 0 then
          (.ok 0, { σ with cache := ((j, i), (0 : ℝ)) :: σ.cache }, 0)
        else σ.callWith j i cv

/-- `Phi.__init__(h, c, analytic_solution)`: selects `phi_mpmath_series` and
converts every coefficient to mpf when analytic_solution is set, else selects
`phi`; the cache starts empty. -/
def Phi.init (h : ℚ) (c : List (PyTag × ℚ)) (analytic : Bool) : PhiState :=
  if analytic then
    { h := h, c := c.map fun cv => (PyTag.mpf, cv.2), cache := [], analytic := true }
  else
    { h := h, c := c, cache := [], analytic := false }

/-- For j ≥ 1 and neg_h ≠ 0, `phi` returns normally, and its gamma-ratio value
collapses to the remainder-series expression (the sums coincide and
Γ(j, z)/Γ(j) = e^(−z)·Σ). -/
lemma phi_ok (j : ℤ) (hj : 1 ≤ j) (z : ℝ) (hz : z ≠ 0) :
    phi j z = .ok ((Real.exp z -
      (Finset.range j.toNat).sum fun k => z ^ k / (Nat.factorial k : ℝ)) / z ^ j) := by
  have hg : _gamma j = .ok (j - 1).toNat.factorial := by
    unfold _gamma
    rw [if_neg (by omega)]
  simp only [phi, hg, _incomplete_gamma, if_neg (show ¬j ≤ 0 by omega), if_neg hz]
  congr 1
  set S : ℝ := (Finset.range j.toNat).sum fun k => z ^ k / (Nat.factorial k : ℝ) with hS
  set γ : ℝ := (((j - 1).toNat.factorial : ℕ) : ℝ) with hγdef
  have hγ : γ ≠ 0 := Nat.cast_ne_zero.mpr (Nat.factorial_ne_zero _)
  have hexp : Real.exp z * Real.exp (-z) = 1 := by
    rw [← Real.exp_add]
    simp
  rw [mul_div_assoc, div_self hγ, mul_one, zpow_neg, div_eq_mul_inv]
  linear_combination (-(((z : ℝ) ^ j)⁻¹) * S) * hexp

/-- C4: for every j ≥ 1 and neg_h ≠ 0 the gamma-ratio formulation `phi`
(SeriesPhi) and the remainder-series formulation `_phi` (RemainderPhi) agree
exactly (hence within any tolerance). -/
theorem phi_eq_phi_remainder (j : ℤ) (hj : 1 ≤ j) (z : ℝ) (hz : z ≠ 0) :
    phi j z = .ok (_phi j z) := by
  rw [phi_ok j hj z hz]
  rfl

/-- C4 witness: instantiation at j = 1, neg_h = 1. -/
theorem phi_eq_phi_remainder_witness :
    (1 : ℤ) ≤ 1 ∧ (1 : ℝ) ≠ 0 ∧ phi 1 1 = .ok (_phi 1 1) :=
  ⟨le_rfl, one_ne_zero, phi_eq_phi_remainder 1 le_rfl 1 one_ne_zero⟩

/-- C5: for every h ≠ 0, `phi 1 (-h)` equals the closed form (e^(−h) − 1)/(−h). -/
theorem phi_one_closed_form (h : ℝ) (hh : h ≠ 0) :
    phi 1 (-h) = .ok ((Real.exp (-h) - 1) / (-h)) := by
  rw [phi_ok 1 le_rfl (-h) (neg_ne_zero.mpr hh)]
  congr 1
  norm_num [Finset.sum_range_one]

/-- C5 witness: instantiation at h = 1. -/
theorem phi_one_closed_form_witness :
    (1 : ℝ) ≠ 0 ∧ phi 1 (-1) = .ok ((Real.exp (-1) - 1) / (-1)) :=
  ⟨one_ne_zero, phi_one_closed_form 1 one_ne_zero⟩

/-- C3 amended: only `phi` (SeriesPhi) rejects j ≤ 0, via its assert; the two
remainder-series implementations accept j ≤ 0 and return the value of the
empty-sum formula e^(neg_h)/neg_h^j instead of raising. -/
theorem phi_order_le_zero_behavior (j : ℤ) (hj : j ≤ 0) (z : ℝ) :
    phi j z = .error .assertionError ∧
    _phi j z = Real.exp z / z ^ j ∧
    (z ≠ 0 ∨ j = 0 → phi_mpmath_series j z = .ok (Real.exp z / z ^ j)) := by
  have ht : j.toNat = 0 := Int.toNat_of_nonpos hj
  refine ⟨?_, ?_, ?_⟩
  · unfold phi
    rw [if_pos hj]
  · unfold _phi
    rw [ht]
    simp
  · intro hcase
    have hne : ¬(z = 0 ∧ j ≠ 0) := by
      rcases hcase with h | h
      · exact fun hc => h hc.1
      · exact fun hc => hc.2 h
    unfold phi_mpmath_series
    rw [if_neg hne, ht]
    simp

/-- C3 counterexample: at order j = 0 both remainder-series implementations
return a value (e^(neg_h)) instead of rejecting with a DomainError. -/
theorem remainder_series_accept_order_zero :
    phi_mpmath_series 0 1 = .ok (Real.exp 1) ∧ _phi 0 (1 : ℝ) = Real.exp 1 := by
  constructor
  · unfold phi_mpmath_series
    norm_num
  · unfold _phi
    norm_num

/-- C3 witness: instantiation at j = 0, neg_h = 2. -/
theorem phi_order_le_zero_behavior_witness :
    (0 : ℤ) ≤ 0 ∧ ((2 : ℝ) ≠ 0 ∨ (0 : ℤ) = 0) ∧
    phi 0 (2 : ℝ) = .error .assertionError ∧
    _phi 0 (2 : ℝ) = Real.exp 2 / (2 : ℝ) ^ (0 : ℤ) ∧
    phi_mpmath_series 0 (2 : ℝ) = .ok (Real.exp 2 / (2 : ℝ) ^ (0 : ℤ)) :=
  ⟨le_rfl, Or.inr rfl, (phi_order_le_zero_behavior 0 le_rfl 2).1,
   (phi_order_le_zero_behavior 0 le_rfl 2).2.1,
   (phi_order_le_zero_behavior 0 le_rfl 2).2.2 (Or.inr rfl)⟩

/-- C8 amended: `calculate_gamma` performs no error handling of its own; a zero
denominator makes the scalar division raise ZeroDivisionError (propagated to
the caller), and otherwise the quotient of the two polynomial values is
returned; at the representative input c2 = c3 = 1/2 the value is −5/2. -/
theorem calculate_gamma_behavior (c2 c3 : ℝ) :
    (c2 * (2 - 3 * c2) = 0 → calculate_gamma c2 c3 = .error .zeroDivisionError) ∧
    (c2 * (2 - 3 * c2) ≠ 0 →
      calculate_gamma c2 c3 = .ok ((3 * c3 ^ 3 - 2 * c3) / (c2 * (2 - 3 * c2)))) ∧
    calculate_gamma (1 / 2) (1 / 2) = .ok (-(5 / 2)) := by
  refine ⟨?_, ?_, ?_⟩
  · intro hd
    unfold calculate_gamma
    rw [if_pos hd]
  · intro hd
    unfold calculate_gamma
    rw [if_neg hd]
  · unfold calculate_gamma
    rw [if_neg (by norm_num)]
    norm_num

/-- C8 counterexample: at c2 = 0 the denominator is zero and the call raises
ZeroDivisionError (Python scalar semantics); it does not return ±inf/NaN. -/
theorem calculate_gamma_zero_denominator_raises :
    calculate_gamma 0 1 = .error .zeroDivisionError := by
  unfold calculate_gamma
  norm_num

/-- C8 witness: instantiation at c2 = c3 = 1/2 with nonzero denominator. -/
theorem calculate_gamma_behavior_witness :
    ((1 / 2 : ℝ) * (2 - 3 * (1 / 2)) = 0 →
      calculate_gamma (1 / 2) (1 / 2) = .error .zeroDivisionError) ∧
    ((1 / 2 : ℝ) * (2 - 3 * (1 / 2)) ≠ 0 ∧
      calculate_gamma (1 / 2) (1 / 2) =
        .ok ((3 * (1 / 2 : ℝ) ^ 3 - 2 * (1 / 2)) / ((1 / 2) * (2 - 3 * (1 / 2))))) :=
  ⟨(calculate_gamma_behavior (1 / 2) (1 / 2)).1,
   by norm_num, (calculate_gamma_behavior (1 / 2) (1 / 2)).2.1 (by norm_num)⟩

/-- C9 amended: for s < 1, `_incomplete_gamma` fails with a DomainError only
when gamma_s is not supplied (the failure comes from `_gamma`); when gamma_s
is supplied there is no domain check, the sum over range(s) is empty, and the
call returns 0. -/
theorem incomplete_gamma_low_s_behavior (s : ℤ) (hs : s < 1) (x : ℝ) :
    _incomplete_gamma s x none = .error .domainError ∧
    ∀ g : ℝ, _incomplete_gamma s x (some g) = .ok 0 := by
  have ht : s.toNat = 0 := Int.toNat_of_nonpos (by omega)
  have hg : _gamma s = .error .domainError := by
    unfold _gamma
    rw [if_pos (by omega)]
  constructor
  · simp [_incomplete_gamma, hg]
  · intro g
    simp [_incomplete_gamma, ht]

/-- C9 counterexample: s = 0 < 1 with gamma_s supplied returns 0 instead of
failing with a DomainError. -/
theorem incomplete_gamma_supplied_no_error :
    _incomplete_gamma 0 1 (some 1) = .ok 0 := by
  simp [_incomplete_gamma]

/-- C9 witness: instantiation at s = −2, x = 3, gamma_s = 5. -/
theorem incomplete_gamma_low_s_behavior_witness :
    (-2 : ℤ) < 1 ∧
    _incomplete_gamma (-2) (3 : ℝ) none = .error .domainError ∧
    _incomplete_gamma (-2) (3 : ℝ) (some 5) = .ok 0 :=
  ⟨by decide, (incomplete_gamma_low_s_behavior (-2) (by decide) 3).1,
   (incomplete_gamma_low_s_behavior (-2) (by decide) 3).2 5⟩

lemma cacheLookup_cons_self (k : ℤ × ℤ) (v : ℝ) (c : List ((ℤ × ℤ) × ℝ)) :
    cacheLookup ((k, v) :: c) k = some v := by
  simp [cacheLookup]

lemma cacheLookup_cons_ne (p : ℤ × ℤ) (v : ℝ) (c : List ((ℤ × ℤ) × ℝ))
    (k : ℤ × ℤ) (h : k ≠ p) : cacheLookup ((p, v) :: c) k = cacheLookup c k := by
  simp only [cacheLookup]
  rw [if_neg fun hh => h hh.symm]

/-- The three possible outcomes of the post-resolution tail of a call:
success always caches under the requested key, failure leaves the state
untouched with exactly one phi invocation. -/
lemma callWith_shape (σ : PhiState) (j i : ℤ) (cv : PyTag × ℚ) :
    (∃ v n, σ.callWith j i cv =
      (.ok v, { σ with cache := ((j, i), v) :: σ.cache }, n)) ∨
    (∃ e, σ.callWith j i cv = (.error e, σ, 1)) := by
  unfold PhiState.callWith
  by_cases hb : j = 0 ∧ (cv.1 = PyTag.float ∨ cv.1 = PyTag.tensor)
  · rw [if_pos hb]
    exact Or.inl ⟨_, 0, rfl⟩
  · rw [if_neg hb]
    cases hser : (if σ.analytic then phi_mpmath_series j ((-(σ.h * cv.2) : ℚ) : ℝ)
                  else phi j ((-(σ.h * cv.2) : ℚ) : ℝ)) with
    | error e => exact Or.inr ⟨e, rfl⟩
    | ok r => exact Or.inl ⟨r, 1, rfl⟩

/-- The three possible outcomes of `Phi.__call__`: a cache hit, a success
that pushes the new entry for the requested key, or an error that leaves the
evaluator state unchanged. -/
lemma call_shape (σ : PhiState) (j i : ℤ) :
    (∃ v n, σ.call j i = (.ok v, σ, n) ∧ cacheLookup σ.cache (j, i) = some v) ∨
    (∃ v n, σ.call j i =
      (.ok v, { σ with cache := ((j, i), v) :: σ.cache }, n)) ∨
    (∃ e n, σ.call j i = (.error e, σ, n)) := by
  cases hc : cacheLookup σ.cache (j, i) with
  | some v =>
    exact Or.inl ⟨v, 0, by unfold PhiState.call; rw [hc], rfl⟩
  | none =>
    right
    have hm : σ.call j i = (if i < 0 then σ.callWith j i (PyTag.int, 1)
        else match pyListGet σ.c (i - 1) with
          | .error e => (.error e, σ, 0)
          | .ok cv =>
            if cv.2 = 0 then
              (.ok 0, { σ with cache := ((j, i), (0 : ℝ)) :: σ.cache }, 0)
            else σ.callWith j i cv) := by
      unfold PhiState.call
      rw [hc]
    rw [hm]
    split
    · rcases callWith_shape σ j i (PyTag.int, 1) with ⟨v, n, hw⟩ | ⟨e, hw⟩
      · exact Or.inl ⟨v, n, hw⟩
      · exact Or.inr ⟨e, 1, hw⟩
    · split
      · exact Or.inr ⟨_, 0, rfl⟩
      · split
        · exact Or.inl ⟨0, 0, rfl⟩
        · rcases callWith_shape σ j i _ with ⟨v, n, hw⟩ | ⟨e, hw⟩
          · exact Or.inl ⟨v, n, hw⟩
          · exact Or.inr ⟨e, 1, hw⟩

/-- C7: evaluation is idempotent per key: after a successful call for (j, i)
producing value v and state σ', repeating the call in σ' returns the cached
v, performs no phi invocation, and leaves the state identical. -/
theorem call_idempotent (σ : PhiState) (j i : ℤ) (v : ℝ) (σ' : PhiState)
    (n : ℕ) (h : σ.call j i = (.ok v, σ', n)) :
    σ'.call j i = (.ok v, σ', 0) := by
  have hcache : cacheLookup σ'.cache (j, i) = some v := by
    rcases call_shape σ j i with ⟨w, m, hw, hc⟩ | ⟨w, m, hw⟩ | ⟨e, m, hw⟩
    · have heq := h.symm.trans hw
      simp only [Prod.mk.injEq, Except.ok.injEq] at heq
      obtain ⟨h1, h2, h3⟩ := heq
      rw [h2, hc, h1]
    · have heq := h.symm.trans hw
      simp only [Prod.mk.injEq, Except.ok.injEq] at heq
      obtain ⟨h1, h2, h3⟩ := heq
      rw [h2, h1]
      exact cacheLookup_cons_self _ _ _
    · have heq := h.symm.trans hw
      simp at heq
  unfold PhiState.call
  rw [hcache]

/-- C7 witness: on a fresh evaluator with a zero coefficient, the first call
for key (0, 1) succeeds, and the repeated call returns the identical cached
value with no phi invocation and no state change. -/
theorem call_idempotent_witness :
    (Phi.init 1 [(PyTag.float, 0)] false).call 0 1 =
      (.ok 0, ⟨1, [(PyTag.float, 0)], [((0, 1), 0)], false⟩, 0) ∧
    PhiState.call ⟨1, [(PyTag.float, 0)], [((0, 1), 0)], false⟩ 0 1 =
      (.ok 0, ⟨1, [(PyTag.float, 0)], [((0, 1), 0)], false⟩, 0) := by
  have h1 : (Phi.init 1 [(PyTag.float, 0)] false).call 0 1 =
      (.ok 0, ⟨1, [(PyTag.float, 0)], [((0, 1), 0)], false⟩, 0) := by
    simp [Phi.init, PhiState.call, pyListGet, pyIndex, cacheLookup]
  exact ⟨h1, call_idempotent _ 0 1 0 _ 0 h1⟩

/-- C10: every call leaves h, the coefficient sequence, the selected
implementation, and every cache entry other than the one for (j, i)
unchanged; a call that fails leaves the whole state unchanged. -/
theorem call_frame (σ : PhiState) (j i : ℤ) :
    (σ.call j i).2.1.h = σ.h ∧ (σ.call j i).2.1.c = σ.c ∧
    (σ.call j i).2.1.analytic = σ.analytic ∧
    (∀ k : ℤ × ℤ, k ≠ (j, i) →
      cacheLookup (σ.call j i).2.1.cache k = cacheLookup σ.cache k) ∧
    (∀ e : Err, (σ.call j i).1 = .error e → (σ.call j i).2.1 = σ) := by
  rcases call_shape σ j i with ⟨v, n, hw, _⟩ | ⟨v, n, hw⟩ | ⟨e, n, hw⟩
  · rw [hw]
    exact ⟨rfl, rfl, rfl, fun k _ => rfl, fun e2 he => rfl⟩
  · rw [hw]
    refine ⟨rfl, rfl, rfl, ?_, ?_⟩
    · intro k hk
      exact cacheLookup_cons_ne _ _ _ _ hk
    · intro e2 he
      simp at he
  · rw [hw]
    exact ⟨rfl, rfl, rfl, fun k _ => rfl, fun e2 he => rfl⟩

/-- C10 witness: instantiation on a failing call (standard precision, j = 0,
default i = −1 raises AssertionError): the unrelated key (5, 5) is untouched
and the state is unchanged. -/
theorem call_frame_witness :
    ((5, 5) : ℤ × ℤ) ≠ ((0 : ℤ), (-1 : ℤ)) ∧
    cacheLookup ((Phi.init 1 [] false).call 0 (-1)).2.1.cache (5, 5) =
      cacheLookup (Phi.init 1 [] false).cache (5, 5) ∧
    ((Phi.init 1 [] false).call 0 (-1)).1 = .error .assertionError ∧
    ((Phi.init 1 [] false).call 0 (-1)).2.1 = Phi.init 1 [] false :=
  ⟨by decide,
   (call_frame (Phi.init 1 [] false) 0 (-1)).2.2.2.1 (5, 5) (by decide),
   by simp [Phi.init, PhiState.call, PhiState.callWith, phi, cacheLookup],
   (call_frame (Phi.init 1 [] false) 0 (-1)).2.2.2.2 .assertionError
     (by simp [Phi.init, PhiState.call, PhiState.callWith, phi, cacheLookup])⟩

/-- On a cache miss, `Phi.__call__` proceeds to coefficient resolution, the
zero short-circuit, and the dispatch tail. -/
lemma call_of_miss (σ : PhiState) (j i : ℤ)
    (hmiss : cacheLookup σ.cache (j, i) = none) :
    σ.call j i = (if i < 0 then σ.callWith j i (PyTag.int, 1)
      else match pyListGet σ.c (i - 1) with
        | .error e => (.error e, σ, 0)
        | .ok cv =>
          if cv.2 = 0 then
            (.ok 0, { σ with cache := ((j, i), (0 : ℝ)) :: σ.cache }, 0)
          else σ.callWith j i cv) := by
  unfold PhiState.call
  rw [hmiss]

/-- On a cache miss with a successfully resolved nonzero coefficient, the
call reduces to the dispatch tail at that coefficient. -/
lemma call_reaches_callWith (σ : PhiState) (j i : ℤ) (cv : PyTag × ℚ)
    (hmiss : cacheLookup σ.cache (j, i) = none)
    (hres : resolveCoeff σ i = .ok cv) (hnz : cv.2 ≠ 0) :
    σ.call j i = σ.callWith j i cv := by
  rw [call_of_miss σ j i hmiss]
  by_cases hi : i < 0
  · rw [if_pos hi]
    unfold resolveCoeff at hres
    rw [if_pos hi] at hres
    have hcv : (PyTag.int, (1 : ℚ)) = cv := by
      injection hres with h'
    rw [← hcv]
  · rw [if_neg hi]
    unfold resolveCoeff at hres
    rw [if_neg hi] at hres
    split
    · rename_i e heq
      rw [hres] at heq
      exact absurd heq (by simp)
    · rename_i cv' heq
      rw [hres] at heq
      have hcv : cv = cv' := by
        injection heq with h'
      subst hcv
      rw [if_neg hnz]

/-- C6: a zero coefficient at an in-bounds index i ≥ 1 short-circuits: for
any order j the call stores 0 under key (j, i) and returns 0 without any phi
invocation. -/
theorem call_zero_coefficient (σ : PhiState) (j i : ℤ) (cv : PyTag × ℚ)
    (hi : 1 ≤ i) (hmiss : cacheLookup σ.cache (j, i) = none)
    (hres : pyListGet σ.c (i - 1) = .ok cv) (h0 : cv.2 = 0) :
    σ.call j i = (.ok 0, { σ with cache := ((j, i), (0 : ℝ)) :: σ.cache }, 0) := by
  rw [call_of_miss σ j i hmiss, if_neg (show ¬i < 0 by omega)]
  split
  · rename_i e heq
    rw [hres] at heq
    exact absurd heq (by simp)
  · rename_i cv' heq
    rw [hres] at heq
    have hcv : cv = cv' := by
      injection heq with h'
    subst hcv
    rw [if_pos h0]

/-- C6 witness: fresh standard evaluator with c = [0.0], order j = 2, i = 1. -/
theorem call_zero_coefficient_witness :
    (1 : ℤ) ≤ 1 ∧
    cacheLookup (Phi.init 1 [(PyTag.float, 0)] false).cache (2, 1) = none ∧
    pyListGet (Phi.init 1 [(PyTag.float, 0)] false).c (1 - 1) =
      .ok (PyTag.float, 0) ∧
    ((PyTag.float, (0 : ℚ)) : PyTag × ℚ).2 = 0 ∧
    (Phi.init 1 [(PyTag.float, 0)] false).call 2 1 =
      (.ok 0, { h := 1, c := [(PyTag.float, 0)], cache := [((2, 1), (0 : ℝ))],
                analytic := false }, 0) :=
  ⟨le_rfl, rfl, rfl, rfl,
   call_zero_coefficient (Phi.init 1 [(PyTag.float, 0)] false) 2 1
     (PyTag.float, 0) le_rfl rfl rfl rfl⟩

lemma _gamma_error_kind (n : ℤ) (e : Err) (h : _gamma n = .error e) :
    e = .domainError := by
  unfold _gamma at h
  split at h
  · injection h with h'
    exact h'.symm
  · exact absurd h (by simp)

lemma phi_error_kind (j : ℤ) (z : ℝ) (e : Err) (h : phi j z = .error e) :
    e ≠ .indexError := by
  unfold phi at h
  split at h
  · have he : e = Err.assertionError := by
      injection h with h'
      exact h'.symm
    subst he
    decide
  · split at h
    · rename_i e' heq
      have h1 : e' = e := by
        injection h with h'
      have h2 : e' = Err.domainError := _gamma_error_kind j e' heq
      rw [← h1, h2]
      decide
    · rename_i g
      simp only [_incomplete_gamma] at h
      split at h
      · have he : e = Err.zeroDivisionError := by
          injection h with h'
          exact h'.symm
        subst he
        decide
      · exact absurd h (by simp)

lemma phi_mpmath_series_error_kind (j : ℤ) (z : ℝ) (e : Err)
    (h : phi_mpmath_series j z = .error e) : e ≠ .indexError := by
  unfold phi_mpmath_series at h
  split at h
  · have he : e = Err.zeroDivisionError := by
      injection h with h'
      exact h'.symm
    subst he
    decide
  · exact absurd h (by simp)

/-- The dispatch tail never raises an IndexError: its only error sources are
the phi implementations, whose exceptions are AssertionError,
ZeroDivisionError or DomainError. -/
lemma callWith_no_index_error (σ : PhiState) (j i : ℤ) (cv : PyTag × ℚ) :
    (σ.callWith j i cv).1 ≠ .error .indexError := by
  unfold PhiState.callWith
  split
  · simp
  · cases hser : (if σ.analytic then phi_mpmath_series j ((-(σ.h * cv.2) : ℚ) : ℝ)
                  else phi j ((-(σ.h * cv.2) : ℚ) : ℝ)) with
    | error e =>
      intro hcon
      have he : e = Err.indexError := by
        have h' : (Except.error e : Except Err ℝ) = .error Err.indexError := hcon
        injection h' with h''
      subst he
      by_cases hb : σ.analytic
      · rw [if_pos hb] at hser
        exact phi_mpmath_series_error_kind _ _ _ hser rfl
      · rw [if_neg hb] at hser
        exact phi_error_kind _ _ _ hser rfl
    | ok r =>
      intro hcon
      exact absurd hcon (by simp)

/-- C2 amended: for non-negative i on an uncached key, the call fails with
IndexError exactly when i exceeds the length of c, or i = 0 with c empty;
in particular i = 0 on a nonempty c resolves, via Python's negative-index
wrap-around in `self.c[i - 1]`, to the last coefficient and proceeds. -/
theorem call_index_error_iff (σ : PhiState) (j i : ℤ) (hi : 0 ≤ i)
    (hmiss : cacheLookup σ.cache (j, i) = none) :
    ((σ.call j i).1 = .error .indexError) ↔
      ((σ.c.length : ℤ) < i ∨ (i = 0 ∧ σ.c = [])) := by
  rw [call_of_miss σ j i hmiss, if_neg (show ¬i < 0 by omega)]
  split
  · rename_i e heq
    have he : e = Err.indexError := by
      unfold pyListGet at heq
      split at heq
      · exact absurd heq (by simp)
      · injection heq with h'
        exact h'.symm
    subst he
    apply iff_of_true rfl
    unfold pyListGet at heq
    split at heq
    · exact absurd heq (by simp)
    · rename_i hguard
      unfold pyIndex at hguard
      by_cases hi0 : i - 1 < 0
      · rw [if_pos hi0] at hguard
        right
        have hi' : i = 0 := by omega
        refine ⟨hi', ?_⟩
        have hlen : σ.c.length = 0 := by omega
        exact List.length_eq_zero.mp hlen
      · rw [if_neg hi0] at hguard
        left
        omega
  · rename_i cv heq
    apply iff_of_false
    · split
      · simp
      · exact callWith_no_index_error σ j i cv
    · unfold pyListGet at heq
      split at heq
      · rename_i hguard
        unfold pyIndex at hguard
        intro hrhs
        rcases hrhs with hlt | ⟨hi0, hnil⟩
        · by_cases hi0 : i - 1 < 0
          · rw [if_pos hi0] at hguard
            omega
          · rw [if_neg hi0] at hguard
            omega
        · subst hi0
          rw [hnil] at hguard
          rw [if_pos (by norm_num)] at hguard
          simp at hguard
      · exact absurd heq (by simp)

/-- C2 counterexample: on c = [0.0], the non-negative out-of-1-based-bounds
index i = 0 does not raise IndexError: `self.c[0 - 1]` wraps to the last
element and the call returns a value (here 0, via the zero short-circuit). -/
theorem call_index_zero_returns_value :
    ((Phi.init 1 [(PyTag.float, 0)] false).call 1 0).1 = .ok 0 := by
  simp [Phi.init, PhiState.call, pyListGet, pyIndex, cacheLookup]

/-- C2 witness: instantiation at an empty c with i = 5, where the call does
raise IndexError. -/
theorem call_index_error_iff_witness :
    (0 : ℤ) ≤ 5 ∧
    cacheLookup (Phi.init 1 [] false).cache (1, 5) = none ∧
    ((((Phi.init 1 [] false).call 1 5).1 = .error .indexError) ↔
      (((Phi.init 1 [] false).c.length : ℤ) < 5 ∨
        ((5 : ℤ) = 0 ∧ (Phi.init 1 [] false).c = []))) :=
  ⟨by decide, rfl, call_index_error_iff (Phi.init 1 [] false) 1 5 (by decide) rfl⟩

/-- C1 amended: evaluate(0, i) on an uncached key with nonzero resolved
coefficient returns e^(−h·c_val) directly via exp (no phi invocation) exactly
when the coefficient's runtime type is float or tensor; otherwise (notably
i < 0, where c_val is the int 1, and every extended-precision coefficient,
which is mpf) the call dispatches to the selected phi implementation at
order 0: the standard-precision evaluator then raises AssertionError from
phi's `assert j > 0`, while the extended-precision evaluator returns
e^(−h·c_val) computed by its series (one phi invocation, never the
gamma-based formula). -/
theorem call_order_zero_cases :
    (∀ (σ : PhiState) (i : ℤ) (cv : PyTag × ℚ),
      cacheLookup σ.cache (0, i) = none → resolveCoeff σ i = .ok cv →
      cv.2 ≠ 0 → (cv.1 = PyTag.float ∨ cv.1 = PyTag.tensor) →
      σ.call 0 i = (.ok (Real.exp ((-(σ.h * cv.2) : ℚ) : ℝ)),
        { σ with cache := ((0, i), Real.exp ((-(σ.h * cv.2) : ℚ) : ℝ)) :: σ.cache },
        0)) ∧
    (∀ (σ : PhiState) (i : ℤ) (cv : PyTag × ℚ),
      σ.analytic = false →
      cacheLookup σ.cache (0, i) = none → resolveCoeff σ i = .ok cv →
      cv.2 ≠ 0 → ¬(cv.1 = PyTag.float ∨ cv.1 = PyTag.tensor) →
      σ.call 0 i = (.error .assertionError, σ, 1)) ∧
    (∀ (σ : PhiState) (i : ℤ) (cv : PyTag × ℚ),
      σ.analytic = true →
      cacheLookup σ.cache (0, i) = none → resolveCoeff σ i = .ok cv →
      cv.2 ≠ 0 → ¬(cv.1 = PyTag.float ∨ cv.1 = PyTag.tensor) →
      σ.call 0 i = (.ok (Real.exp ((-(σ.h * cv.2) : ℚ) : ℝ)),
        { σ with cache := ((0, i), Real.exp ((-(σ.h * cv.2) : ℚ) : ℝ)) :: σ.cache },
        1)) := by
  refine ⟨?_, ?_, ?_⟩
  · intro σ i cv hmiss hres hnz htag
    rw [call_reaches_callWith σ 0 i cv hmiss hres hnz]
    unfold PhiState.callWith
    rw [if_pos ⟨rfl, htag⟩]
  · intro σ i cv hana hmiss hres hnz htag
    rw [call_reaches_callWith σ 0 i cv hmiss hres hnz]
    unfold PhiState.callWith
    rw [if_neg fun hc => htag hc.2]
    have hphi : phi 0 ((-(σ.h * cv.2) : ℚ) : ℝ) = .error .assertionError := by
      unfold phi
      rw [if_pos le_rfl]
    rw [hana, if_neg (by decide : ¬(false = true)), hphi]
  · intro σ i cv hana hmiss hres hnz htag
    rw [call_reaches_callWith σ 0 i cv hmiss hres hnz]
    unfold PhiState.callWith
    rw [if_neg fun hc => htag hc.2]
    have hser : phi_mpmath_series 0 ((-(σ.h * cv.2) : ℚ) : ℝ) =
        .ok (Real.exp ((-(σ.h * cv.2) : ℚ) : ℝ)) := by
      unfold phi_mpmath_series
      rw [if_neg (by simp)]
      simp
    rw [hana, if_pos rfl, hser]

/-- C1 counterexample: on a standard-precision evaluator, evaluate(0, −1)
resolves c_val to the int 1, fails the runtime type test, dispatches to
phi(0, ·), and raises AssertionError — it does not return e^(−h·1). -/
theorem call_order_zero_standard_default_raises :
    (Phi.init 1 [] false).call 0 (-1) =
      (.error .assertionError, Phi.init 1 [] false, 1) := by
  simp [Phi.init, PhiState.call, PhiState.callWith, phi, cacheLookup]

/-- C1 witness: the three cases instantiated on fresh evaluators — a float
coefficient under standard precision (direct exp), the default index under
standard precision (AssertionError), and the default index under extended
precision (series value e^(−h)). -/
theorem call_order_zero_cases_witness :
    ((3 : ℚ) ≠ 0 ∧
      (Phi.init 2 [(PyTag.float, 3)] false).call 0 1 =
        (.ok (Real.exp ((-(2 * 3) : ℚ) : ℝ)),
         { h := 2, c := [(PyTag.float, 3)],
           cache := [((0, 1), Real.exp ((-(2 * 3) : ℚ) : ℝ))], analytic := false },
         0)) ∧
    ((Phi.init 1 [] false).analytic = false ∧
      (Phi.init 1 [] false).call 0 (-1) =
        (.error .assertionError, Phi.init 1 [] false, 1)) ∧
    ((Phi.init 1 [] true).analytic = true ∧
      (Phi.init 1 [] true).call 0 (-1) =
        (.ok (Real.exp ((-(1 * 1) : ℚ) : ℝ)),
         { h := 1, c := [], cache := [((0, -1), Real.exp ((-(1 * 1) : ℚ) : ℝ))],
           analytic := true },
         1)) := by
  refine ⟨⟨by norm_num, ?_⟩, ⟨rfl, ?_⟩, ⟨rfl, ?_⟩⟩
  · exact call_order_zero_cases.1 (Phi.init 2 [(PyTag.float, 3)] false) 1
      (PyTag.float, 3) rfl rfl (by norm_num) (Or.inl rfl)
  · exact call_order_zero_cases.2.1 (Phi.init 1 [] false) (-1) (PyTag.int, 1)
      rfl rfl rfl (by norm_num) (by decide)
  · exact call_order_zero_cases.2.2 (Phi.init 1 [] true) (-1) (PyTag.int, 1)
      rfl rfl rfl (by norm_num) (by decide)
